import Mathlib

/-!
Verification of the Squeak mouse-tracking trajectory library
(`squeak/main.py`).  The trajectory-processing core is embedded
shallowly: coordinate and time values become rationals (reals where
the source uses `sqrt`/trigonometry), numpy helpers (`arange`,
`interp`, boolean `argmax`, `min`/`max` of a sequence) are embedded
as executable Lean functions, and each library function is translated
statement by statement from the Python source.
-/

namespace Squeak

/-- Python's `min(list)` over a nonempty list; `d` is returned for `[]`
(that case never arises in the source, which would raise there). -/
def listMinD {α : Type} [LinearOrder α] : List α → α → α
  | [], d => d
  | a :: l, _ => min a (listMinD l a)

/-- Python's `max(list)` over a nonempty list; `d` is returned for `[]`. -/
def listMaxD {α : Type} [LinearOrder α] : List α → α → α
  | [], d => d
  | a :: l, _ => max a (listMaxD l a)

/-- numpy's `arange(start, stop, step)` for a positive step:
`ceil((stop - start)/step)` points `start + k*step`. -/
def np_arange (start stop step : ℚ) : List ℚ :=
  let n : ℕ := if 0 < step then (⌈(stop - start) / step⌉).toNat else 0
  (List.range n).map (fun k : ℕ => start + (k : ℚ) * step)

/-- Interior-segment evaluation used by `np_interp`: mirrors numpy's
binary search contract `xp[j] <= q < xp[j+1]` (the last knot at or below
the query) by advancing while the right knot is still at or below `q`,
then interpolating from the left knot of the stopping segment. -/
def findSeg (q : ℚ) : List (ℚ × ℚ) → ℚ
  | [] => 0
  | [(_, v)] => v
  | (t0, v0) :: (t1, v1) :: rest =>
      if q < t1 then v0 + (q - t0) * (v1 - v0) / (t1 - t0)
      else findSeg q ((t1, v1) :: rest)

/-- numpy's `np.interp(q, xp, fp)` (the `interp` imported from scipy is
an alias of it): `fp[-1]` for `q >= xp[-1]`, `fp[0]` for `q < xp[0]`,
otherwise linear interpolation on the segment whose left knot is the
last knot `<= q`. -/
def np_interp (q : ℚ) (xp fp : List ℚ) : ℚ :=
  if xp.getLastD 0 ≤ q then fp.getLastD 0
  else if q < xp.headD 0 then fp.headD 0
  else findSeg q (xp.zip fp)

/-- Python's `int()` applied to a ratio: truncation toward zero. -/
def py_int (q : ℚ) : ℤ :=
  if q < 0 then ⌈q⌉ else ⌊q⌋

/-- `even_time_steps(x, y, t, length)` from the source: evenly spaced
timestamps over `[min t, max t)` and linear interpolation of `x` and
`y` at each of them. -/
def even_time_steps (x y t : List ℚ) (length : ℕ) : List ℚ × List ℚ × List ℚ :=
  let nt := np_arange (listMinD t 0) (listMaxD t 0)
    ((listMaxD t 0 - listMinD t 0) / (length : ℚ))
  (nt.map (fun q => np_interp q t x), nt.map (fun q => np_interp q t y), nt)

/-- `normalize_space(array, start, end)` from the source: linear
interpolation of every entry from the padded old range
`[array[0]-delta, array[-1]+delta]` onto the padded new range. -/
def normalize_space (array : List ℚ) (start end' : ℚ) : List ℚ :=
  let old_delta := array.getLastD 0 - array.headD 0
  let new_delta := end' - start
  let old_range := [array.headD 0 - old_delta, array.getLastD 0 + old_delta]
  let new_range := [start - new_delta, end' + new_delta]
  array.map (fun q => np_interp q old_range new_range)

/-- `remap_right(array)` from the source: mirror the sequence around its
first element when it decreases overall. -/
def remap_right (array : List ℚ) : List ℚ :=
  if array.getLastD 0 - array.headD 0 < 0 then
    array.map (fun v => (v - array.headD 0) * (-1) + array.headD 0)
  else array

/-- `uniform_time(coordinates, timepoints, desired_interval, max_duration)`
from the source: resample onto `arange(0, t[-1]+1, interval)`, then pad
with copies of the last resampled value up to
`int(max_duration/interval)` entries.  A negative padding count yields
no padding (Python list repetition with a negative count is empty). -/
def uniform_time (coordinates timepoints : List ℚ)
    (desired_interval max_duration : ℚ) : List ℚ :=
  let regular_timepoints := np_arange 0 (timepoints.getLastD 0 + 1) desired_interval
  let regular_coordinates := regular_timepoints.map (fun q => np_interp q timepoints coordinates)
  let required_length : ℕ := (py_int (max_duration / desired_interval)).toNat
  let extra_values := List.replicate (required_length - regular_coordinates.length)
    (regular_coordinates.getLastD 0)
  regular_coordinates ++ extra_values

/-- Terms of the shoelace-style loop shared by `auc` and `auc2`: for each
index `i`, `x[i]*y[j] - y[i]*x[j]` with `j` the cyclic predecessor of `i`
(starting at `len(x) - 1`). -/
def aucTerms (x y : List ℚ) : List ℚ :=
  (List.range x.length).map (fun i =>
    let j := if i = 0 then x.length - 1 else i - 1
    x.getD i 0 * y.getD j 0 - y.getD i 0 * x.getD j 0)

/-- `auc(x, y)` from the source: half the cyclic shoelace sum. -/
def auc (x y : List ℚ) : ℚ := (aucTerms x y).sum / 2

/-- `auc2(x, y)` from the source: append `x[-1]` to `x` and `y[0]` to `y`,
take the (unhalved) cyclic shoelace sum, and subtract
`0.5 * |x[-1] - x[0]| * |y[-1]*y[0]|` computed on the extended lists. -/
def auc2 (x y : List ℚ) : ℚ :=
  let x2 := x ++ [x.getLastD 0]
  let y2 := y ++ [y.headD 0]
  (aucTerms x2 y2).sum
    - 1/2 * |x2.getLastD 0 - x2.headD 0| * |y2.getLastD 0 * y2.headD 0|

/-- Index of the first `true`, if any (numpy `argmax` on booleans picks
the first maximal element). -/
def firstTrue : List Bool → Option ℕ
  | [] => none
  | b :: bs => if b then some 0 else (firstTrue bs).map (· + 1)

/-- numpy's `argmax` on a boolean array: first `true` index, `0` when the
array is all-`false` (or empty). -/
def np_argmax_bool (l : List Bool) : ℕ :=
  (firstTrue l).getD 0

/-- `get_init_step(y, y_threshold, ascending)` from the source. -/
def get_init_step (y : List ℚ) (y_threshold : ℚ) (ascending : Bool) : ℕ :=
  let started := y.map (fun v =>
    if ascending then decide (y_threshold < v) else decide (v < y_threshold))
  np_argmax_bool started

/-- `get_init_time(t, y, y_threshold, ascending)` from the source; the
Python indexing `t[init_step]` is embedded as an optional lookup so that
an out-of-range index (an `IndexError` in Python) is observable. -/
def get_init_time (t y : List ℚ) (y_threshold : ℚ) (ascending : Bool) : Option ℚ :=
  t[get_init_step y y_threshold ascending]?

/-- `rel_distance(x_path, y_path)` from the source: the reference points
are `(rx1, ry1) = (x_path[0], x_path[-1])` and
`(rx2, ry2) = (-1*rx1, ry1)`, and each sample is mapped to `d1/(d1+d2)`
for its two Euclidean distances `d1`, `d2` to the references. -/
noncomputable def rel_distance (x_path y_path : List ℝ) : List ℝ :=
  let rx1 := x_path.headD 0
  let ry1 := x_path.getLastD 0
  let rx2 := -1 * rx1
  let ry2 := ry1
  (x_path.zip y_path).map (fun p =>
    let d1 := Real.sqrt ((p.1 - rx1) ^ 2 + (p.2 - ry1) ^ 2)
    let d2 := Real.sqrt ((p.1 - rx2) ^ 2 + (p.2 - ry2) ^ 2)
    d1 / (d1 + d2))

/-- Stated from the spec's words, for comparison with `rel_distance`:
identical except that the reference y-coordinate is the spec's
`ry1 = y[-1]` (the path's last y) rather than the code's `x_path[-1]`. -/
noncomputable def rel_distance_specRef (x_path y_path : List ℝ) : List ℝ :=
  let rx1 := x_path.headD 0
  let ry1 := y_path.getLastD 0
  let rx2 := -1 * rx1
  let ry2 := ry1
  (x_path.zip y_path).map (fun p =>
    let d1 := Real.sqrt ((p.1 - rx1) ^ 2 + (p.2 - ry1) ^ 2)
    let d2 := Real.sqrt ((p.1 - rx2) ^ 2 + (p.2 - ry2) ^ 2)
    d1 / (d1 + d2))

/-- `rotate(x, y, rad)` from the source: counter-clockwise rotation
about the origin. -/
noncomputable def rotate (x y rad : ℝ) : ℝ × ℝ :=
  (Real.cos rad * x - Real.sin rad * y, Real.sin rad * x + Real.cos rad * y)

/-- The rotated-x sequence built by the loop inside `max_deviation`:
every `(x, y)` sample rotated by `atan(x[-1]/y[-1])` radians, keeping
the rotated x-coordinate. -/
noncomputable def rxList (x y : List ℝ) : List ℝ :=
  (x.zip y).map (fun p =>
    (rotate p.1 p.2 (Real.arctan (x.getLastD 0 / y.getLastD 0))).1)

/-- The tail of `max_deviation`: `max_positive = abs(min(rx))`,
`max_negative = abs(max(rx))`, return the positive one if it is strictly
larger, else `-1 * max_negative`. -/
noncomputable def mdCore (rx : List ℝ) : ℝ :=
  if |listMaxD rx 0| < |listMinD rx 0| then |listMinD rx 0|
  else (-1) * |listMaxD rx 0|

/-- `max_deviation(x, y)` from the source. -/
noncomputable def max_deviation (x y : List ℝ) : ℝ :=
  mdCore (rxList x y)

/-- Reflection of a point across the line through the origin and
`(xe, ye)`; used only to state the mirror-image half of the
sign-convention claim. -/
noncomputable def reflect_point (xe ye : ℝ) (p : ℝ × ℝ) : ℝ × ℝ :=
  (((xe ^ 2 - ye ^ 2) * p.1 + 2 * xe * ye * p.2) / (xe ^ 2 + ye ^ 2),
   (2 * xe * ye * p.1 - (xe ^ 2 - ye ^ 2) * p.2) / (xe ^ 2 + ye ^ 2))

theorem listMinD_mem {α : Type} [LinearOrder α] (a : α) (l : List α) (d : α) :
    listMinD (a :: l) d ∈ a :: l := by
  induction l generalizing a d with
  | nil => simp [listMinD]
  | cons b t ih =>
      have h : listMinD (a :: b :: t) d = min a (listMinD (b :: t) a) := rfl
      rw [h]
      rcases min_cases a (listMinD (b :: t) a) with ⟨h1, _⟩ | ⟨h1, _⟩
      · rw [h1]; exact List.mem_cons_self _ _
      · rw [h1]; exact List.mem_cons_of_mem _ (ih b a)

theorem listMaxD_mem {α : Type} [LinearOrder α] (a : α) (l : List α) (d : α) :
    listMaxD (a :: l) d ∈ a :: l := by
  induction l generalizing a d with
  | nil => simp [listMaxD]
  | cons b t ih =>
      have h : listMaxD (a :: b :: t) d = max a (listMaxD (b :: t) a) := rfl
      rw [h]
      rcases max_cases a (listMaxD (b :: t) a) with ⟨h1, _⟩ | ⟨h1, _⟩
      · rw [h1]; exact List.mem_cons_self _ _
      · rw [h1]; exact List.mem_cons_of_mem _ (ih b a)

theorem listMinD_le_of_mem {α : Type} [LinearOrder α] {a b : α} {l : List α} (d : α)
    (hb : b ∈ a :: l) : listMinD (a :: l) d ≤ b := by
  induction l generalizing a d with
  | nil => simp_all [listMinD]
  | cons c t ih =>
      rcases List.mem_cons.1 hb with rfl | hb'
      · exact min_le_left _ _ |>.trans le_rfl
      · exact le_trans (min_le_right _ _) (ih a hb')

theorem le_listMaxD_of_mem {α : Type} [LinearOrder α] {a b : α} {l : List α} (d : α)
    (hb : b ∈ a :: l) : b ≤ listMaxD (a :: l) d := by
  induction l generalizing a d with
  | nil => simp_all [listMaxD]
  | cons c t ih =>
      rcases List.mem_cons.1 hb with rfl | hb'
      · exact le_max_left _ _
      · exact le_trans (ih a hb') (le_max_right _ _)

theorem headD_map {α β : Type} (f : α → β) {l : List α} (h : l ≠ []) (d : α) (d' : β) :
    (l.map f).headD d' = f (l.headD d) := by
  cases l with
  | nil => exact absurd rfl h
  | cons a t => rfl

theorem getLastD_map {α β : Type} (f : α → β) {l : List α} (h : l ≠ []) (d : α) (d' : β) :
    (l.map f).getLastD d' = f (l.getLastD d) := by
  induction l generalizing d d' with
  | nil => exact absurd rfl h
  | cons a t ih =>
      cases t with
      | nil => rfl
      | cons b u =>
          rw [List.map_cons, List.getLastD_cons, List.getLastD_cons]
          exact ih (by simp) a (f a)

theorem firstTrue_eq_none_iff (l : List Bool) :
    firstTrue l = none ↔ ∀ b ∈ l, b = false := by
  induction l with
  | nil => simp [firstTrue]
  | cons b t ih =>
      cases b with
      | true => simp [firstTrue]
      | false => simp [firstTrue, Option.map_eq_none', ih]

theorem firstTrue_spec {l : List Bool} {i : ℕ} (h : firstTrue l = some i) :
    i < l.length ∧ l.getD i false = true ∧ ∀ k < i, l.getD k false = false := by
  induction l generalizing i with
  | nil => simp [firstTrue] at h
  | cons b t ih =>
      cases b with
      | true =>
          simp only [firstTrue, eq_self_iff_true, if_true, Option.some.injEq] at h
          subst h
          simp
      | false =>
          simp only [firstTrue, Bool.false_eq_true, if_false, Option.map_eq_some'] at h
          obtain ⟨j, hj, rfl⟩ := h
          obtain ⟨h1, h2, h3⟩ := ih hj
          refine ⟨by simpa using Nat.succ_lt_succ h1, by simpa using h2, ?_⟩
          intro k hk
          cases k with
          | zero => rfl
          | succ k' => simpa using h3 k' (by omega)

theorem getD_map_of_lt {α β : Type} [Inhabited α] [Inhabited β] (f : α → β) {l : List α} {i : ℕ}
    (h : i < l.length) (d : α) (d' : β) : (l.map f).getD i d' = f (l.getD i d) := by
  rw [List.getD_eq_getElem _ _ (by simpa using h), List.getD_eq_getElem _ _ h,
    List.getElem_map]

/-- C8: `get_init_step(y, threshold, ascending)` returns the index of the
first element with `y[i] > threshold` (ascending) or `y[i] < threshold`
(descending), and returns index `0` when no element satisfies the
condition; in particular
`get_init_step([0, 0, 0.02, 0.5], 0.01, True) = 2`. -/
theorem get_init_step_first_crossing (y : List ℚ) (y_threshold : ℚ) (ascending : Bool) :
    ((∃ i < y.length,
        (if ascending then y_threshold < y.getD i 0 else y.getD i 0 < y_threshold)) →
      (get_init_step y y_threshold ascending < y.length ∧
       (if ascending then y_threshold < y.getD (get_init_step y y_threshold ascending) 0
        else y.getD (get_init_step y y_threshold ascending) 0 < y_threshold) ∧
       ∀ k < get_init_step y y_threshold ascending,
         ¬ (if ascending then y_threshold < y.getD k 0 else y.getD k 0 < y_threshold))) ∧
    ((∀ i < y.length,
        ¬ (if ascending then y_threshold < y.getD i 0 else y.getD i 0 < y_threshold)) →
      get_init_step y y_threshold ascending = 0) ∧
    get_init_step [0, 0, 1/50, 1/2] (1/100) true = 2 := by
  have hpb : ∀ v : ℚ,
      ((if ascending then decide (y_threshold < v) else decide (v < y_threshold)) = true) ↔
      (if ascending then y_threshold < v else v < y_threshold) := by
    intro v; cases ascending <;> simp
  have hlen : (y.map (fun v =>
      if ascending then decide (y_threshold < v) else decide (v < y_threshold))).length
      = y.length := List.length_map _ _
  refine ⟨?_, ?_, ?_⟩
  · rintro ⟨i, hi, hPi⟩
    set L := y.map (fun v =>
      if ascending then decide (y_threshold < v) else decide (v < y_threshold)) with hL
    cases hft : firstTrue L with
    | none =>
        exfalso
        have hall := (firstTrue_eq_none_iff L).1 hft
        have hmem : L.getD i false ∈ L := by
          rw [List.getD_eq_getElem _ _ (by rw [hL, hlen]; exact hi)]
          exact List.getElem_mem _
        have htrue : L.getD i false = true := by
          rw [hL, getD_map_of_lt _ hi 0 false]
          exact (hpb _).2 hPi
        rw [hall _ hmem] at htrue
        exact Bool.false_ne_true htrue
    | some j =>
        have hr : get_init_step y y_threshold ascending = j := by
          simp [get_init_step, np_argmax_bool, ← hL, hft]
        obtain ⟨h1, h2, h3⟩ := firstTrue_spec hft
        rw [hL, hlen] at h1
        refine hr ▸ ⟨h1, ?_, ?_⟩
        · rw [hL, getD_map_of_lt _ h1 0 false] at h2
          exact (hpb _).1 h2
        · intro k hk
          have hk' : k < y.length := lt_trans hk h1
          have := h3 k hk
          rw [hL, getD_map_of_lt _ hk' 0 false] at this
          intro hcon
          rw [(hpb _).2 hcon] at this
          exact absurd this (by simp)
  · intro hnone
    have : firstTrue (y.map (fun v =>
        if ascending then decide (y_threshold < v) else decide (v < y_threshold))) = none := by
      rw [firstTrue_eq_none_iff]
      intro b hb
      obtain ⟨a, ha, rfl⟩ := List.mem_map.1 hb
      obtain ⟨i, hi, rfl⟩ := List.mem_iff_getElem.1 ha
      have hthis := hnone i hi
      rw [List.getD_eq_getElem y 0 hi] at hthis
      cases hres : (if ascending then decide (y_threshold < y[i])
          else decide (y[i] < y_threshold)) with
      | false => rfl
      | true => exact absurd ((hpb _).1 hres) hthis
    simp [get_init_step, np_argmax_bool, this]
  · norm_num [get_init_step, np_argmax_bool, firstTrue, List.map]

theorem get_init_step_first_crossing_witness :
    (∃ i < ([0, 0, 1/50, 1/2] : List ℚ).length,
      (if (true : Bool) then (1/100 : ℚ) < ([0, 0, 1/50, 1/2] : List ℚ).getD i 0
       else ([0, 0, 1/50, 1/2] : List ℚ).getD i 0 < 1/100)) ∧
    get_init_step [0, 0, 1/50, 1/2] (1/100) true < ([0, 0, 1/50, 1/2] : List ℚ).length := by
  have hex : ∃ i < ([0, 0, 1/50, 1/2] : List ℚ).length,
      (if (true : Bool) then (1/100 : ℚ) < ([0, 0, 1/50, 1/2] : List ℚ).getD i 0
       else ([0, 0, 1/50, 1/2] : List ℚ).getD i 0 < 1/100) :=
    ⟨2, by norm_num, by norm_num [List.getD]⟩
  exact ⟨hex, ((get_init_step_first_crossing [0, 0, 1/50, 1/2] (1/100) true).1 hex).1⟩

/-- C9: `remap_right` is idempotent on every non-empty coordinate list,
and is the identity whenever the list does not decrease overall
(`coord[-1] >= coord[0]`, including flat). -/
theorem remap_right_idempotent (array : List ℚ) (h : array ≠ []) :
    remap_right (remap_right array) = remap_right array ∧
    (array.headD 0 ≤ array.getLastD 0 → remap_right array = array) := by
  constructor
  · by_cases hc : array.getLastD 0 - array.headD 0 < 0
    · have hflip : remap_right array
          = array.map (fun v => (v - array.headD 0) * (-1) + array.headD 0) := by
        rw [remap_right, if_pos hc]
      rw [hflip]
      rw [remap_right, if_neg]
      rw [getLastD_map _ h 0 0, headD_map _ h 0 0]
      push_neg
      nlinarith [hc]
    · have hid : remap_right array = array := by rw [remap_right, if_neg hc]
      rw [hid, hid]
  · intro hle
    rw [remap_right, if_neg (by linarith)]

theorem remap_right_idempotent_witness :
    ([10, 9, 8] : List ℚ) ≠ [] ∧
    (remap_right (remap_right [10, 9, 8]) = remap_right [10, 9, 8] ∧
     (([10, 9, 8] : List ℚ).headD 0 ≤ ([10, 9, 8] : List ℚ).getLastD 0 →
       remap_right [10, 9, 8] = [10, 9, 8])) :=
  ⟨by simp, remap_right_idempotent [10, 9, 8] (by simp)⟩

/-- C10: for every non-empty `y`, `get_init_step` returns an index inside
`[0, len(y))`; hence for equal-length non-empty `t`, `y` the lookup
`t[init_step]` inside `get_init_time` is in bounds and `get_init_time`
returns a value (never an `IndexError`). -/
theorem get_init_step_in_range (t y : List ℚ) (y_threshold : ℚ) (ascending : Bool)
    (hy : y ≠ []) (hlen : t.length = y.length) :
    get_init_step y y_threshold ascending < y.length ∧
    (get_init_time t y y_threshold ascending).isSome := by
  have hlenL : (y.map (fun v =>
      if ascending then decide (y_threshold < v) else decide (v < y_threshold))).length
      = y.length := List.length_map _ _
  have hstep : get_init_step y y_threshold ascending < y.length := by
    rw [get_init_step, np_argmax_bool]
    cases hft : firstTrue (y.map (fun v =>
        if ascending then decide (y_threshold < v) else decide (v < y_threshold))) with
    | none =>
        simp only [Option.getD_none]
        exact List.length_pos.2 hy
    | some j =>
        simp only [Option.getD_some]
        have := (firstTrue_spec hft).1
        rwa [hlenL] at this
  refine ⟨hstep, ?_⟩
  rw [get_init_time, List.getElem?_eq_getElem (by rw [hlen]; exact hstep)]
  rfl

theorem get_init_step_in_range_witness :
    ([1, 2] : List ℚ) ≠ [] ∧ ([5, 6] : List ℚ).length = ([1, 2] : List ℚ).length ∧
    (get_init_step [1, 2] 0 true < ([1, 2] : List ℚ).length ∧
     (get_init_time [5, 6] [1, 2] 0 true).isSome) :=
  ⟨by simp, rfl, get_init_step_in_range [5, 6] [1, 2] 0 true (by simp) rfl⟩

theorem getLastD_mem {α : Type} (l : List α) (d : α) (h : l ≠ []) : l.getLastD d ∈ l := by
  induction l generalizing d with
  | nil => exact absurd rfl h
  | cons a t ih =>
      cases t with
      | nil => simp [List.getLastD]
      | cons b u =>
          rw [List.getLastD_cons]
          exact List.mem_cons_of_mem _ (ih a (by simp))

theorem listMinD_eq_headD (t : List ℚ) (d : ℚ) (h : t ≠ [])
    (hs : List.Pairwise (· ≤ ·) t) : listMinD t d = t.headD d := by
  cases t with
  | nil => exact absurd rfl h
  | cons a l =>
      have hmin : listMinD (a :: l) d = min a (listMinD l a) := rfl
      rw [hmin]
      cases l with
      | nil => simp [listMinD]
      | cons b u =>
          have hmem := listMinD_mem b u a
          have hle : a ≤ listMinD (b :: u) a :=
            (List.pairwise_cons.1 hs).1 _ hmem
          simp [min_eq_left hle]

theorem listMaxD_eq_getLastD (t : List ℚ) (d : ℚ) (h : t ≠ [])
    (hs : List.Pairwise (· ≤ ·) t) : listMaxD t d = t.getLastD d := by
  induction t generalizing d with
  | nil => exact absurd rfl h
  | cons a l ih =>
      have hmax : listMaxD (a :: l) d = max a (listMaxD l a) := rfl
      rw [hmax, List.getLastD_cons]
      cases l with
      | nil => simp [listMaxD]
      | cons b u =>
          rw [ih a (by simp) (List.pairwise_cons.1 hs).2]
          have hmem := getLastD_mem (b :: u) a (by simp)
          have hle : a ≤ (b :: u).getLastD a :=
            (List.pairwise_cons.1 hs).1 _ hmem
          exact max_eq_right hle

theorem headD_le_getLastD (t : List ℚ) (h : t ≠ [])
    (hs : List.Pairwise (· ≤ ·) t) : t.headD 0 ≤ t.getLastD 0 := by
  rw [← listMinD_eq_headD t 0 h hs, ← listMaxD_eq_getLastD t 0 h hs]
  cases t with
  | nil => exact absurd rfl h
  | cons a l => exact listMinD_le_of_mem 0 (listMaxD_mem a l 0)

theorem getLastD_eq_getD {α : Type} (l : List α) (d : α) (h : l ≠ []) :
    l.getLastD d = l.getD (l.length - 1) d := by
  induction l generalizing d with
  | nil => exact absurd rfl h
  | cons a t ih =>
      cases t with
      | nil => rfl
      | cons b u =>
          rw [List.getLastD_cons, ih a (by simp)]
          have hlen : (a :: b :: u).length - 1 = ((b :: u).length - 1) + 1 := by
            simp
          rw [hlen, List.getD_cons_succ]
          have hb : (b :: u).length - 1 < (b :: u).length := Nat.sub_lt (by simp) one_pos
          rw [List.getD_eq_getElem _ _ hb, List.getD_eq_getElem _ _ hb]

theorem getD_append_left {α : Type} (l1 l2 : List α) (i : ℕ) (h : i < l1.length) (d : α) :
    (l1 ++ l2).getD i d = l1.getD i d := by
  rw [List.getD_eq_getElem _ _ (by simp; omega), List.getD_eq_getElem _ _ h,
    List.getElem_append_left]

/-- C2: the spec requires a typed `OutOfRangeError` when the recorded
duration exceeds `max_duration`, and the source's own docstring says it
"currently crashes" there; in fact the code raises nothing: with
`coord=[0,1]`, `t=[0,40]`, `interval=10`, `max_duration=30` it silently
returns a length-5 result (the negative padding count produces an empty
extension), exceeding the advertised fixed length `3`. -/
theorem uniform_time_no_error_eval :
    (uniform_time [0, 1] [0, 40] 10 30).length = 5 := by
  have h : (if 0 < (10:ℚ) then (⌈((([(0:ℚ), 40]).getLastD 0 + 1) - 0) / 10⌉).toNat else 0)
      = 5 := by
    rw [if_pos (by norm_num)]
    have h2 : ⌈((([(0:ℚ), 40]).getLastD 0 + 1) - 0) / 10⌉ = 5 := by
      norm_num [Int.ceil_eq_iff, List.getLastD]
    rw [h2]; rfl
  simp only [uniform_time, np_arange, h, py_int, List.length_append, List.length_map,
    List.length_replicate]
  rw [if_neg (by norm_num)]
  have h4 : ⌊(30:ℚ) / 10⌋ = 3 := by norm_num
  rw [h4]
  rfl

/-- C3: the spec claims `auc` and `auc2` are both `0` on a straight-line
path; on the straight diagonal `x=[0,1]`, `y=[0,1]` (both affine in the
index) `auc` is `0` as claimed but `auc2` evaluates to `1`: the code's
closing sum is not halved and its triangle term uses the appended
`y[-1] = y[0]`, so the intended cancellation fails. -/
theorem auc_auc2_straight_line_eval :
    auc [0, 1] [0, 1] = 0 ∧ auc2 [0, 1] [0, 1] = 1 := by
  constructor
  · norm_num [auc, aucTerms, List.range_succ, List.getD]
  · norm_num [auc2, aucTerms, List.range_succ, List.getD, List.getLastD, List.headD]

/-- C6 counterexample: for the decreasing list `[1, 0]` (old span `-1`,
nonzero) with `start=0`, `end=1`, `normalize_space` returns `[2, 2]`:
the padded old range is decreasing, so `np.interp` degenerates to its
clamping branch, and `coord[0]` maps to `2`, not to `start`. -/
theorem normalize_space_counterexample :
    normalize_space [1, 0] 0 1 = [2, 2] := by
  simp only [normalize_space, List.map, List.getLastD, List.headD]
  norm_num [np_interp, List.getLastD, List.headD]

/-- C6 (amended): for every coordinate list of length at least 2 whose
overall span `coord[-1] - coord[0]` is strictly positive (the claim's
"nonzero" weakened away from decreasing inputs, on which the code
degenerates), `normalize_space` maps `coord[0]` to `start` and
`coord[-1]` to `end` exactly. -/
theorem normalize_space_anchors (array : List ℚ) (start end' : ℚ)
    (hlen : 2 ≤ array.length)
    (hspan : 0 < array.getLastD 0 - array.headD 0) :
    (normalize_space array start end').headD 0 = start ∧
    (normalize_space array start end').getLastD 0 = end' := by
  have hne : array ≠ [] := by
    cases array with
    | nil => simp at hlen
    | cons a t => simp
  set a0 := array.headD 0 with ha0
  set a1 := array.getLastD 0 with ha1
  set d := a1 - a0 with hd
  set nd := end' - start with hnd
  have hinterp : ∀ q : ℚ, a0 ≤ q → q ≤ a1 →
      np_interp q [a0 - d, a1 + d] [start - nd, end' + nd]
        = start - nd + (q - (a0 - d)) * ((end' + nd) - (start - nd)) / ((a1 + d) - (a0 - d)) := by
    intro q hq1 hq2
    have hlast : ([a0 - d, a1 + d] : List ℚ).getLastD 0 = a1 + d := rfl
    have hhead : ([a0 - d, a1 + d] : List ℚ).headD 0 = a0 - d := rfl
    rw [np_interp, hlast, hhead, if_neg (by push_neg; linarith),
      if_neg (by push_neg; linarith)]
    rw [show (([a0 - d, a1 + d] : List ℚ).zip [start - nd, end' + nd])
        = [(a0 - d, start - nd), (a1 + d, end' + nd)] from rfl]
    simp only [findSeg]
    rw [if_pos (by linarith)]
  constructor
  · rw [normalize_space]
    rw [headD_map _ hne 0 0]
    rw [hinterp a0 le_rfl (by linarith)]
    have h3d : (a1 + d) - (a0 - d) = 3 * d := by rw [hd]; ring
    have h3nd : (end' + nd) - (start - nd) = 3 * nd := by ring
    rw [h3d, h3nd]
    have hdne : d ≠ 0 := ne_of_gt hspan
    field_simp
    ring
  · rw [normalize_space]
    rw [getLastD_map _ hne 0 0]
    rw [hinterp a1 (by linarith) le_rfl]
    have h3d : (a1 + d) - (a0 - d) = 3 * d := by rw [hd]; ring
    have h3nd : (end' + nd) - (start - nd) = 3 * nd := by ring
    have h2d : a1 - (a0 - d) = 2 * d := by rw [hd]; ring
    rw [h3d, h3nd, h2d]
    have hdne : d ≠ 0 := ne_of_gt hspan
    field_simp
    ring

theorem normalize_space_anchors_witness :
    2 ≤ ([0, 1] : List ℚ).length ∧
    0 < ([0, 1] : List ℚ).getLastD 0 - ([0, 1] : List ℚ).headD 0 ∧
    ((normalize_space [0, 1] 5 7).headD 0 = 5 ∧
     (normalize_space [0, 1] 5 7).getLastD 0 = 7) :=
  ⟨by norm_num, by norm_num [List.getLastD, List.headD],
    normalize_space_anchors [0, 1] 5 7 (by norm_num)
      (by norm_num [List.getLastD, List.headD])⟩

theorem np_interp_head (t c : List ℚ) (hsort : List.Pairwise (· < ·) t)
    (hlen2 : 2 ≤ t.length) (hc : c.length = t.length) :
    np_interp (t.headD 0) t c = c.headD 0 := by
  cases t with
  | nil => simp at hlen2
  | cons a ts =>
      cases ts with
      | nil => simp at hlen2
      | cons b ts2 =>
          cases c with
          | nil => simp at hc
          | cons c0 cs =>
              cases cs with
              | nil => simp at hc
              | cons c1 cs2 =>
                  have hab : a < b :=
                    (List.pairwise_cons.1 hsort).1 b (List.mem_cons_self b ts2)
                  have hlast_mem : (b :: ts2).getLastD a ∈ b :: ts2 :=
                    getLastD_mem _ _ (by simp)
                  have halast : a < (b :: ts2).getLastD a :=
                    (List.pairwise_cons.1 hsort).1 _ hlast_mem
                  rw [np_interp, List.getLastD_cons,
                    show (a :: b :: ts2).headD (0:ℚ) = a from rfl]
                  rw [if_neg (by push_neg; exact halast)]
                  rw [if_neg (lt_irrefl a)]
                  rw [List.zip_cons_cons, List.zip_cons_cons]
                  simp only [findSeg]
                  rw [if_pos hab]
                  simp

/-- C4 counterexample: the claim quantifies over monotonic
*non-decreasing* `t`; with the duplicated minimum `t=[0,0,10]`,
`x=[5,7,9]`, `y=[0,0,0]`, `N=2`, numpy's interpolation at
`t = min(t) = 0` picks the value at the *last* knot `<= 0`
(binary-search contract `xp[j] <= q < xp[j+1]`), so the first output
x-coordinate is `7`, not `x[0] = 5`. -/
theorem even_time_steps_first_counterexample :
    (even_time_steps [5, 7, 9] [0, 0, 0] [0, 0, 10] 2).1.headD 0 = 7 ∧
    ([5, 7, 9] : List ℚ).headD 0 = 5 := by
  have hmin : listMinD ([0, 0, 10] : List ℚ) 0 = 0 := by
    norm_num [listMinD, min_def]
  have hmax : listMaxD ([0, 0, 10] : List ℚ) 0 = 10 := by
    norm_num [listMaxD, max_def]
  have hinterp0 : np_interp 0 [0, 0, 10] [5, 7, 9] = 7 := by
    rw [np_interp,
      show ([(0:ℚ), 0, 10]).getLastD 0 = 10 from rfl,
      show ([(0:ℚ), 0, 10]).headD 0 = 0 from rfl]
    rw [if_neg (by norm_num), if_neg (by norm_num)]
    rw [show (([(0:ℚ), 0, 10]).zip [(5:ℚ), 7, 9])
        = [((0:ℚ), (5:ℚ)), (0, 7), (10, 9)] from rfl]
    simp only [findSeg]
    rw [if_neg (by norm_num), if_pos (by norm_num)]
    norm_num
  have harange : np_arange (listMinD ([0, 0, 10] : List ℚ) 0)
      (listMaxD ([0, 0, 10] : List ℚ) 0)
      ((listMaxD ([0, 0, 10] : List ℚ) 0 - listMinD ([0, 0, 10] : List ℚ) 0)
        / ((2:ℕ) : ℚ)) = [0, 5] := by
    rw [hmin, hmax]
    rw [show ((10:ℚ) - 0) / ((2:ℕ) : ℚ) = 5 by norm_num]
    rw [np_arange]
    have hc5 : (if 0 < (5:ℚ) then (⌈((10:ℚ) - 0) / 5⌉).toNat else 0) = 2 := by
      rw [if_pos (by norm_num)]
      have h2 : ⌈((10:ℚ) - 0) / 5⌉ = 2 := by norm_num [Int.ceil_eq_iff]
      rw [h2]; rfl
    rw [hc5]
    rw [show List.range 2 = [0, 1] from rfl]
    norm_num
  constructor
  · rw [even_time_steps, harange]
    rw [List.map_cons, List.headD_cons, hinterp0]
  · rfl

/-- C4 (amended): for equal-length `x`, `y`, `t` with `t` *strictly*
increasing (the non-decreasing case fails when the minimum timestamp is
duplicated, where numpy interpolates to the last duplicate's value) and
`max(t) > min(t)`, `even_time_steps(x, y, t, N)` returns three sequences
of length exactly `N`, and the first output point's coordinates equal
`x[0]` and `y[0]` (linear interpolation at `t = min(t)`), exactly in the
rational embedding. -/
theorem even_time_steps_shape (x y t : List ℚ) (N : ℕ)
    (ht : t ≠ []) (hx : x.length = t.length) (hy : y.length = t.length)
    (hsort : List.Pairwise (· < ·) t)
    (hspan : listMinD t 0 < listMaxD t 0) (hN : 0 < N) :
    (even_time_steps x y t N).1.length = N ∧
    (even_time_steps x y t N).2.1.length = N ∧
    (even_time_steps x y t N).2.2.length = N ∧
    (even_time_steps x y t N).1.headD 0 = x.headD 0 ∧
    (even_time_steps x y t N).2.1.headD 0 = y.headD 0 := by
  have hsort' : List.Pairwise (· ≤ ·) t := hsort.imp le_of_lt
  have hlen2 : 2 ≤ t.length := by
    cases t with
    | nil => exact absurd rfl ht
    | cons a ts =>
        cases ts with
        | nil =>
            exfalso
            have hz : listMinD [a] (0:ℚ) = listMaxD [a] 0 := rfl
            rw [hz] at hspan
            exact lt_irrefl _ hspan
        | cons b ts2 => simp
  set m := listMinD t 0 with hm
  set M := listMaxD t 0 with hM
  have hMm : (0:ℚ) < M - m := sub_pos.2 hspan
  have hNQ : (0:ℚ) < (N:ℚ) := by exact_mod_cast hN
  have hstep : (0:ℚ) < (M - m) / (N:ℚ) := div_pos hMm hNQ
  have hcount : (if 0 < (M - m) / (N:ℚ) then (⌈(M - m) / ((M - m) / (N:ℚ))⌉).toNat else 0)
      = N := by
    rw [if_pos hstep]
    have hq : (M - m) / ((M - m) / (N:ℚ)) = (N:ℚ) := by
      have h1 : M - m ≠ 0 := ne_of_gt hMm
      have h2 : (N:ℚ) ≠ 0 := ne_of_gt hNQ
      field_simp
    rw [hq, Int.ceil_natCast, Int.toNat_natCast]
  have hnt : np_arange m M ((M - m) / (N:ℚ))
      = (List.range N).map (fun k : ℕ => m + (k : ℚ) * ((M - m) / (N:ℚ))) := by
    rw [np_arange, hcount]
  have hntlen : (np_arange m M ((M - m) / (N:ℚ))).length = N := by
    rw [hnt, List.length_map, List.length_range]
  have hntne : np_arange m M ((M - m) / (N:ℚ)) ≠ [] := by
    intro hcon
    rw [hcon] at hntlen
    simp at hntlen
    omega
  have hrange_head : (List.range N).headD 0 = 0 := by
    cases N with
    | zero => exact absurd hN (lt_irrefl 0)
    | succ n => rw [List.range_succ_eq_map]; rfl
  have hrange_ne : List.range N ≠ [] := by
    rw [ne_eq, List.range_eq_nil]
    omega
  have hnthead : (np_arange m M ((M - m) / (N:ℚ))).headD 0 = m := by
    rw [hnt, headD_map _ hrange_ne 0 0, hrange_head]
    simp
  have hmhead : m = t.headD 0 := by rw [hm, listMinD_eq_headD t 0 ht hsort']
  have hinterp : ∀ c : List ℚ, c.length = t.length → np_interp m t c = c.headD 0 := by
    intro c hc
    rw [hmhead]
    exact np_interp_head t c hsort hlen2 hc
  refine ⟨?_, ?_, ?_, ?_, ?_⟩
  · rw [even_time_steps, List.length_map, hntlen]
  · rw [even_time_steps, List.length_map, hntlen]
  · rw [even_time_steps, hntlen]
  · rw [even_time_steps]
    rw [headD_map _ hntne 0 0, hnthead, hinterp x hx]
  · rw [even_time_steps]
    rw [headD_map _ hntne 0 0, hnthead, hinterp y hy]

theorem even_time_steps_shape_witness :
    (([0, 10, 20, 30] : List ℚ) ≠ [] ∧
     List.Pairwise (· < ·) ([0, 10, 20, 30] : List ℚ) ∧
     listMinD ([0, 10, 20, 30] : List ℚ) 0 < listMaxD ([0, 10, 20, 30] : List ℚ) 0) ∧
    ((even_time_steps [0, 1, 2, 3] [7, 7, 7, 7] [0, 10, 20, 30] 4).1.length = 4 ∧
     (even_time_steps [0, 1, 2, 3] [7, 7, 7, 7] [0, 10, 20, 30] 4).2.1.length = 4 ∧
     (even_time_steps [0, 1, 2, 3] [7, 7, 7, 7] [0, 10, 20, 30] 4).2.2.length = 4 ∧
     (even_time_steps [0, 1, 2, 3] [7, 7, 7, 7] [0, 10, 20, 30] 4).1.headD 0
        = ([0, 1, 2, 3] : List ℚ).headD 0 ∧
     (even_time_steps [0, 1, 2, 3] [7, 7, 7, 7] [0, 10, 20, 30] 4).2.1.headD 0
        = ([7, 7, 7, 7] : List ℚ).headD 0) := by
  have hsort : List.Pairwise (· < ·) ([0, 10, 20, 30] : List ℚ) := by
    norm_num [List.pairwise_cons]
  have hspan : listMinD ([0, 10, 20, 30] : List ℚ) 0 < listMaxD ([0, 10, 20, 30] : List ℚ) 0 := by
    norm_num [listMinD, listMaxD, min_def, max_def]
  exact ⟨⟨by simp, hsort, hspan⟩,
    even_time_steps_shape [0, 1, 2, 3] [7, 7, 7, 7] [0, 10, 20, 30] 4
      (by simp) rfl rfl hsort hspan (by norm_num)⟩

/-- C5 counterexample: with `coord=[0,1]`, `t=[0,30]` (strictly
increasing, `t[0]=0`, `t[-1]=30 <= max_duration=30`) and `interval=10`,
`uniform_time` returns a sequence of length `4`, not
`floor(max_duration/interval) = 3`: `arange(0, t[-1]+1, 10)` already has
4 points and the negative padding count adds nothing. -/
theorem uniform_time_length_counterexample :
    (uniform_time [0, 1] [0, 30] 10 30).length = 4 := by
  have h : (if 0 < (10:ℚ) then (⌈((([(0:ℚ), 30]).getLastD 0 + 1) - 0) / 10⌉).toNat else 0)
      = 4 := by
    rw [if_pos (by norm_num)]
    have h2 : ⌈((([(0:ℚ), 30]).getLastD 0 + 1) - 0) / 10⌉ = 4 := by
      norm_num [Int.ceil_eq_iff, List.getLastD]
    rw [h2]; rfl
  simp only [uniform_time, np_arange, h, py_int, List.length_append, List.length_map,
    List.length_replicate]
  rw [if_neg (by norm_num)]
  have h4 : ⌊(30:ℚ) / 10⌋ = 3 := by norm_num
  rw [h4]
  rfl

/-- C5 (amended): under the claim's hypotheses strengthened to
`t[-1] + 1 <= interval * floor(max_duration/interval)` (so that the
interpolation grid alone does not already exceed the advertised length —
the boundary case `t[-1] = max_duration` falsifies the original claim),
`uniform_time` returns exactly `floor(max_duration/interval)` values,
and every element past the `ceil((t[-1]+1)/interval)` interpolated ones
equals the last interpolated value. -/
theorem uniform_time_length_pad (coordinates timepoints : List ℚ)
    (interval max_duration : ℚ)
    (ht : timepoints ≠ []) (hlen : coordinates.length = timepoints.length)
    (hsort : List.Pairwise (· < ·) timepoints)
    (h0 : timepoints.headD 0 = 0)
    (hint : 0 < interval)
    (hfit : timepoints.getLastD 0 + 1
        ≤ interval * ((⌊max_duration / interval⌋).toNat : ℚ)) :
    (uniform_time coordinates timepoints interval max_duration).length
        = (⌊max_duration / interval⌋).toNat ∧
    ∀ v ∈ (uniform_time coordinates timepoints interval max_duration).drop
        (⌈(timepoints.getLastD 0 + 1) / interval⌉).toNat,
      v = (uniform_time coordinates timepoints interval max_duration).getD
        ((⌈(timepoints.getLastD 0 + 1) / interval⌉).toNat - 1) 0 := by
  set tl := timepoints.getLastD 0 with htl
  have htl0 : (0:ℚ) ≤ tl := by
    have h := headD_le_getLastD timepoints ht (hsort.imp le_of_lt)
    rw [h0] at h
    rw [htl]
    exact h
  set mz := ⌈(tl + 1) / interval⌉ with hmz
  set m := mz.toNat with hmN
  set R := (⌊max_duration / interval⌋).toNat with hR
  have hm1 : 1 ≤ m := by
    have : (0:ℚ) < (tl + 1) / interval := div_pos (by linarith) hint
    have := Int.ceil_pos.2 this
    omega
  have hmR : m ≤ R := by
    have hq : (tl + 1) / interval ≤ (R:ℚ) := by
      rw [div_le_iff hint]
      linarith [hfit]
    have : mz ≤ (R:ℤ) := by
      rw [hmz]
      exact_mod_cast Int.ceil_le.2 (by exact_mod_cast hq)
    omega
  have hcount : (if 0 < interval then (⌈((tl + 1) - 0) / interval⌉).toNat else 0) = m := by
    rw [if_pos hint, sub_zero, ← hmz, ← hmN]
  have hreq : (py_int (max_duration / interval)).toNat = R := by
    have hpos : (0:ℚ) ≤ max_duration / interval := by
      by_contra hcon
      push_neg at hcon
      have : ⌊max_duration / interval⌋ < 0 := Int.floor_lt.2 (by simpa using hcon)
      have hR0 : R = 0 := by omega
      rw [hR0] at hmR
      omega
    rw [py_int, if_neg (by push_neg; exact hpos), hR]
  have hreglen : (np_arange 0 (tl + 1) interval).length = m := by
    rw [np_arange, List.length_map, List.length_range, hcount]
  have hu : uniform_time coordinates timepoints interval max_duration
      = ((np_arange 0 (tl + 1) interval).map
          (fun q => np_interp q timepoints coordinates))
        ++ List.replicate
            (R - m)
            (((np_arange 0 (tl + 1) interval).map
              (fun q => np_interp q timepoints coordinates)).getLastD 0) := by
    rw [uniform_time, hreq, List.length_map, hreglen]
  set reg := (np_arange 0 (tl + 1) interval).map
    (fun q => np_interp q timepoints coordinates) with hreg
  have hregl : reg.length = m := by rw [hreg, List.length_map, hreglen]
  have hregne : reg ≠ [] := by
    intro hcon
    rw [hcon] at hregl
    simp at hregl
    omega
  constructor
  · rw [hu, List.length_append, hregl, List.length_replicate]
    omega
  · intro v hv
    rw [hu] at hv
    rw [← hregl, List.drop_left] at hv
    have hvpad := List.eq_of_mem_replicate hv
    have hgd : (reg ++ List.replicate (R - m) (reg.getLastD 0)).getD (m - 1) 0
        = reg.getLastD 0 := by
      rw [getD_append_left _ _ _ (by omega) 0]
      rw [getLastD_eq_getD reg 0 hregne, hregl]
    rw [hu, hgd, hvpad]

theorem uniform_time_length_pad_witness :
    (uniform_time [0, 1] [0, 15] 10 30).length = (⌊(30:ℚ) / 10⌋).toNat ∧
    ∀ v ∈ (uniform_time [0, 1] [0, 15] 10 30).drop
        (⌈(([0, 15] : List ℚ).getLastD 0 + 1) / 10⌉).toNat,
      v = (uniform_time [0, 1] [0, 15] 10 30).getD
        ((⌈(([0, 15] : List ℚ).getLastD 0 + 1) / 10⌉).toNat - 1) 0 := by
  refine uniform_time_length_pad [0, 1] [0, 15] 10 30 (by simp) rfl ?_ rfl (by norm_num) ?_
  · norm_num [List.pairwise_cons]
  · have h3 : ⌊(30:ℚ) / 10⌋ = 3 := by norm_num
    rw [h3, show (3:ℤ).toNat = 3 from rfl]
    norm_num [List.getLastD]

/-- C1 counterexample: on `x=[1,0]`, `y=[0,5]` the code's first relative
distance is `0` (its reference point 1 is `(x[0], x[-1]) = (1, 0)`,
which coincides with the first sample), while the spec's stated
reference point 1 `(x[0], y[-1]) = (1, 5)` gives a strictly positive
value; so `rel_distance` does not use the reference points the claim
states. -/
theorem rel_distance_counterexample :
    (rel_distance [1, 0] [0, 5]).headD 9 ≠ (rel_distance_specRef [1, 0] [0, 5]).headD 9 := by
  have hL : (rel_distance [1, 0] [0, 5]).headD 9 = 0 := by
    simp only [rel_distance, List.zip_cons_cons, List.zip_nil_right, List.map_cons,
      List.headD_cons]
    norm_num
  have hR : 0 < (rel_distance_specRef [1, 0] [0, 5]).headD 9 := by
    simp only [rel_distance_specRef, List.zip_cons_cons, List.zip_nil_right, List.map_cons,
      List.headD_cons]
    have hd1 : 0 < Real.sqrt (((1:ℝ) - 1) ^ 2 + ((0:ℝ) - 5) ^ 2) :=
      Real.sqrt_pos.2 (by norm_num)
    have hd2 : 0 ≤ Real.sqrt (((1:ℝ) - -1 * 1) ^ 2 + ((0:ℝ) - 5) ^ 2) :=
      Real.sqrt_nonneg _
    positivity
  rw [hL]
  exact ne_of_lt hR

/-- C1 (amended): for equal-length paths, `rel_distance` returns at each
index `i` the value `d1/(d1+d2)` where `d1` is the Euclidean distance
from `(x[i], y[i])` to reference point 1 `(x[0], x[-1])` and `d2` the
distance to reference point 2 `(-x[0], x[-1])` — the reference
y-coordinate is the path's last x value, not its last y value. -/
theorem rel_distance_formula (x_path y_path : List ℝ)
    (hlen : x_path.length = y_path.length) (i : ℕ) (hi : i < x_path.length) :
    (rel_distance x_path y_path).getD i 0 =
      Real.sqrt ((x_path.getD i 0 - x_path.headD 0) ^ 2
          + (y_path.getD i 0 - x_path.getLastD 0) ^ 2) /
      (Real.sqrt ((x_path.getD i 0 - x_path.headD 0) ^ 2
          + (y_path.getD i 0 - x_path.getLastD 0) ^ 2)
       + Real.sqrt ((x_path.getD i 0 - -1 * x_path.headD 0) ^ 2
          + (y_path.getD i 0 - x_path.getLastD 0) ^ 2)) := by
  have hiz : i < (x_path.zip y_path).length := by
    rw [List.length_zip, hlen, min_self, ← hlen]
    exact hi
  rw [rel_distance]
  rw [List.getD_eq_getElem _ _ (by rw [List.length_map]; exact hiz)]
  rw [List.getElem_map, List.getElem_zip]
  rw [List.getD_eq_getElem x_path 0 hi,
    List.getD_eq_getElem y_path 0 (by rw [← hlen]; exact hi)]

theorem rel_distance_formula_witness :
    (rel_distance [1, 0] [0, 5]).getD 0 0 =
      Real.sqrt ((([1, 0] : List ℝ).getD 0 0 - ([1, 0] : List ℝ).headD 0) ^ 2
          + (([0, 5] : List ℝ).getD 0 0 - ([1, 0] : List ℝ).getLastD 0) ^ 2) /
      (Real.sqrt ((([1, 0] : List ℝ).getD 0 0 - ([1, 0] : List ℝ).headD 0) ^ 2
          + (([0, 5] : List ℝ).getD 0 0 - ([1, 0] : List ℝ).getLastD 0) ^ 2)
       + Real.sqrt ((([1, 0] : List ℝ).getD 0 0 - -1 * ([1, 0] : List ℝ).headD 0) ^ 2
          + (([0, 5] : List ℝ).getD 0 0 - ([1, 0] : List ℝ).getLastD 0) ^ 2)) :=
  rel_distance_formula [1, 0] [0, 5] rfl 0 (by norm_num)

theorem listMinD_map_neg (l : List ℝ) (d : ℝ) :
    listMinD (l.map Neg.neg) (-d) = -(listMaxD l d) := by
  induction l generalizing d with
  | nil => rfl
  | cons a t ih =>
      show min (-a) (listMinD (t.map Neg.neg) (-a)) = -(max a (listMaxD t a))
      rw [ih a, min_neg_neg]

theorem listMaxD_map_neg (l : List ℝ) (d : ℝ) :
    listMaxD (l.map Neg.neg) (-d) = -(listMinD l d) := by
  induction l generalizing d with
  | nil => rfl
  | cons a t ih =>
      show max (-a) (listMaxD (t.map Neg.neg) (-a)) = -(min a (listMinD t a))
      rw [ih a, max_neg_neg]

theorem listMinD_all_zero {l : List ℝ} (h : ∀ a ∈ l, a = 0) : listMinD l 0 = 0 := by
  cases l with
  | nil => rfl
  | cons a t =>
      have ha : a = 0 := h a (List.mem_cons_self a t)
      cases t with
      | nil => show min a (listMinD [] a) = 0; simp [listMinD, ha]
      | cons b u =>
          show min a (listMinD (b :: u) a) = 0
          have hz := h _ (List.mem_cons_of_mem a (listMinD_mem b u a))
          rw [hz, ha]
          simp

theorem listMaxD_all_zero {l : List ℝ} (h : ∀ a ∈ l, a = 0) : listMaxD l 0 = 0 := by
  cases l with
  | nil => rfl
  | cons a t =>
      have ha : a = 0 := h a (List.mem_cons_self a t)
      cases t with
      | nil => show max a (listMaxD [] a) = 0; simp [listMaxD, ha]
      | cons b u =>
          show max a (listMaxD (b :: u) a) = 0
          have hz := h _ (List.mem_cons_of_mem a (listMaxD_mem b u a))
          rw [hz, ha]
          simp

theorem mdCore_all_zero {L : List ℝ} (h : ∀ a ∈ L, a = 0) : mdCore L = 0 := by
  rw [mdCore, listMinD_all_zero h, listMaxD_all_zero h]
  simp

theorem mdCore_mirror (L : List ℝ) (h0 : (0:ℝ) ∈ L)
    (hsgn : (∀ a ∈ L, 0 ≤ a) ∨ (∀ a ∈ L, a ≤ 0))
    (hstrict : ∃ a ∈ L, a ≠ 0) :
    mdCore (L.map Neg.neg) = - mdCore L ∧ mdCore L ≠ 0 := by
  obtain ⟨a0, ha0, ha0ne⟩ := hstrict
  cases L with
  | nil => simp at h0
  | cons b t =>
      have hmin_le : listMinD (b :: t) 0 ≤ 0 := listMinD_le_of_mem 0 h0
      have hmax_ge : 0 ≤ listMaxD (b :: t) 0 := le_listMaxD_of_mem 0 h0
      have hminmap : listMinD ((b :: t).map Neg.neg) 0 = -(listMaxD (b :: t) 0) := by
        have h := listMinD_map_neg (b :: t) 0
        rwa [neg_zero] at h
      have hmaxmap : listMaxD ((b :: t).map Neg.neg) 0 = -(listMinD (b :: t) 0) := by
        have h := listMaxD_map_neg (b :: t) 0
        rwa [neg_zero] at h
      rcases hsgn with hpos | hneg
      · have hmin0 : listMinD (b :: t) 0 = 0 :=
          le_antisymm hmin_le (hpos _ (listMinD_mem b t 0))
        have hmaxpos : 0 < listMaxD (b :: t) 0 :=
          lt_of_lt_of_le (lt_of_le_of_ne (hpos _ ha0) (Ne.symm ha0ne))
            (le_listMaxD_of_mem 0 ha0)
        have hmd : mdCore (b :: t) = -(listMaxD (b :: t) 0) := by
          rw [mdCore, hmin0, if_neg (by rw [abs_zero]; push_neg; exact abs_nonneg _)]
          rw [abs_of_pos hmaxpos]
          ring
        have hmd2 : mdCore ((b :: t).map Neg.neg) = listMaxD (b :: t) 0 := by
          rw [mdCore, hminmap, hmaxmap, hmin0, neg_zero, abs_zero, abs_neg,
            if_pos (by rw [abs_of_pos hmaxpos]; exact hmaxpos)]
          exact abs_of_pos hmaxpos
        refine ⟨by rw [hmd2, hmd, neg_neg], ?_⟩
        rw [hmd]
        intro hcon
        exact absurd (neg_eq_zero.1 hcon) (ne_of_gt hmaxpos)
      · have hmax0 : listMaxD (b :: t) 0 = 0 :=
          le_antisymm (hneg _ (listMaxD_mem b t 0)) hmax_ge
        have hminneg : listMinD (b :: t) 0 < 0 :=
          lt_of_le_of_lt (listMinD_le_of_mem 0 ha0)
            (lt_of_le_of_ne (hneg _ ha0) ha0ne)
        have hmd : mdCore (b :: t) = -(listMinD (b :: t) 0) := by
          rw [mdCore, hmax0, abs_zero,
            if_pos (by rw [abs_of_neg hminneg]; linarith)]
          exact abs_of_neg hminneg
        have hmd2 : mdCore ((b :: t).map Neg.neg) = listMinD (b :: t) 0 := by
          rw [mdCore, hminmap, hmaxmap, hmax0, neg_zero, abs_zero,
            if_neg (by push_neg; exact abs_nonneg _), abs_neg, abs_of_neg hminneg]
          ring
        refine ⟨by rw [hmd2, hmd, neg_neg], ?_⟩
        rw [hmd]
        intro hcon
        exact absurd (neg_eq_zero.1 hcon) (ne_of_lt hminneg)

theorem zip_map_fst_snd {α β : Type} (l : List (α × β)) :
    (l.map Prod.fst).zip (l.map Prod.snd) = l := by
  induction l with
  | nil => rfl
  | cons a t ih => rw [List.map_cons, List.map_cons, List.zip_cons_cons, ih]

theorem zip_getLastD {α β : Type} (x : List α) (y : List β)
    (h : x.length = y.length) (hx : x ≠ []) (da : α) (db : β) :
    (x.zip y).getLastD (da, db) = (x.getLastD da, y.getLastD db) := by
  induction x generalizing y da db with
  | nil => exact absurd rfl hx
  | cons a t ih =>
      cases y with
      | nil => simp at h
      | cons b u =>
          rw [List.zip_cons_cons, List.getLastD_cons, List.getLastD_cons,
            List.getLastD_cons]
          cases t with
          | nil =>
              cases u with
              | nil => rfl
              | cons b2 u2 => simp at h
          | cons a2 t2 =>
              cases u with
              | nil => simp at h
              | cons b2 u2 => exact ih (b2 :: u2) (by simpa using h) (by simp) a b

/-- C7: with `y[-1] /= 0`, a perfectly straight path (every sample
collinear with the ideal line from the origin to `(x[-1], y[-1])`,
i.e. `x[i]*y[-1] = y[i]*x[-1]`) has `max_deviation = 0`; and a path
bowing entirely to one side of that line (all cross-products one-signed,
at least one nonzero) yields a `max_deviation` of sign opposite to that
of its mirror image across the ideal line (and both are nonzero). -/
theorem max_deviation_sign_convention (x y : List ℝ) (hne : x ≠ [])
    (hlen : x.length = y.length) (hy : y.getLastD 0 ≠ 0) :
    ((∀ p ∈ x.zip y, p.1 * y.getLastD 0 = p.2 * x.getLastD 0) →
      max_deviation x y = 0) ∧
    (((∀ p ∈ x.zip y, 0 ≤ p.1 * y.getLastD 0 - p.2 * x.getLastD 0) ∨
      (∀ p ∈ x.zip y, p.1 * y.getLastD 0 - p.2 * x.getLastD 0 ≤ 0)) →
     (∃ p ∈ x.zip y, p.1 * y.getLastD 0 - p.2 * x.getLastD 0 ≠ 0) →
      (max_deviation
          (((x.zip y).map (reflect_point (x.getLastD 0) (y.getLastD 0))).map Prod.fst)
          (((x.zip y).map (reflect_point (x.getLastD 0) (y.getLastD 0))).map Prod.snd)
        = - max_deviation x y ∧ max_deviation x y ≠ 0)) := by
  set xe := x.getLastD 0 with hxe
  set ye := y.getLastD 0 with hye
  have hc : (0:ℝ) < Real.sqrt (1 + (xe / ye) ^ 2) :=
    Real.sqrt_pos.2 (by positivity)
  set K := 1 / (ye * Real.sqrt (1 + (xe / ye) ^ 2)) with hKdef
  have hKne : K ≠ 0 := one_div_ne_zero (mul_ne_zero hy (ne_of_gt hc))
  have hrot : ∀ p : ℝ × ℝ,
      (rotate p.1 p.2 (Real.arctan (xe / ye))).1 = K * (p.1 * ye - p.2 * xe) := by
    intro p
    show Real.cos (Real.arctan (xe / ye)) * p.1
        - Real.sin (Real.arctan (xe / ye)) * p.2 = K * (p.1 * ye - p.2 * xe)
    rw [Real.cos_arctan, Real.sin_arctan, hKdef]
    have hcne : Real.sqrt (1 + (xe / ye) ^ 2) ≠ 0 := ne_of_gt hc
    field_simp
    ring
  have hrxeq : rxList x y = (x.zip y).map (fun p => K * (p.1 * ye - p.2 * xe)) := by
    rw [rxList]
    exact List.map_congr_left (fun p _ => hrot p)
  constructor
  · intro hall
    rw [max_deviation, hrxeq]
    apply mdCore_all_zero
    intro a ha
    obtain ⟨p, hp, rfl⟩ := List.mem_map.1 ha
    have hz : p.1 * ye - p.2 * xe = 0 := by rw [hall p hp, sub_self]
    rw [hz, mul_zero]
  · intro hside hex
    have hyne : y ≠ [] := by
      intro hcon
      rw [hcon] at hlen
      simp at hlen
      exact hne hlen
    have hzipne : x.zip y ≠ [] := by
      intro hcon
      have hlz := congrArg List.length hcon
      rw [List.length_zip, hlen, min_self] at hlz
      simp at hlz
      exact hyne hlz
    have hlastzip : (x.zip y).getLastD (0, 0) = (xe, ye) :=
      zip_getLastD x y hlen hne 0 0
    have h0mem : (0:ℝ) ∈ (x.zip y).map (fun p => K * (p.1 * ye - p.2 * xe)) := by
      refine List.mem_map.2 ⟨(xe, ye), ?_, ?_⟩
      · rw [← hlastzip]
        exact getLastD_mem _ _ hzipne
      · show K * (xe * ye - ye * xe) = 0
        rw [show xe * ye - ye * xe = 0 by ring, mul_zero]
    have hsgn' : (∀ a ∈ (x.zip y).map (fun p => K * (p.1 * ye - p.2 * xe)), 0 ≤ a) ∨
        (∀ a ∈ (x.zip y).map (fun p => K * (p.1 * ye - p.2 * xe)), a ≤ 0) := by
      rcases lt_or_gt_of_ne hKne with hKneg | hKpos
      · rcases hside with hp | hn
        · right
          intro a ha
          obtain ⟨p, hp', rfl⟩ := List.mem_map.1 ha
          exact mul_nonpos_iff.2 (Or.inr ⟨le_of_lt hKneg, hp p hp'⟩)
        · left
          intro a ha
          obtain ⟨p, hp', rfl⟩ := List.mem_map.1 ha
          exact mul_nonneg_iff.2 (Or.inr ⟨le_of_lt hKneg, hn p hp'⟩)
      · rcases hside with hp | hn
        · left
          intro a ha
          obtain ⟨p, hp', rfl⟩ := List.mem_map.1 ha
          exact mul_nonneg (le_of_lt hKpos) (hp p hp')
        · right
          intro a ha
          obtain ⟨p, hp', rfl⟩ := List.mem_map.1 ha
          exact mul_nonpos_iff.2 (Or.inl ⟨le_of_lt hKpos, hn p hp'⟩)
    have hstrict' : ∃ a ∈ (x.zip y).map (fun p => K * (p.1 * ye - p.2 * xe)), a ≠ 0 := by
      obtain ⟨p, hp, hpne⟩ := hex
      exact ⟨K * (p.1 * ye - p.2 * xe), List.mem_map_of_mem _ hp,
        mul_ne_zero hKne hpne⟩
    have hsum : (0:ℝ) < xe ^ 2 + ye ^ 2 := by positivity
    have hsne : xe ^ 2 + ye ^ 2 ≠ 0 := ne_of_gt hsum
    have hreflast : reflect_point xe ye (xe, ye) = (xe, ye) := by
      rw [reflect_point]
      have h1 : ((xe ^ 2 - ye ^ 2) * xe + 2 * xe * ye * ye) / (xe ^ 2 + ye ^ 2) = xe := by
        field_simp
        ring
      have h2 : (2 * xe * ye * xe - (xe ^ 2 - ye ^ 2) * ye) / (xe ^ 2 + ye ^ 2) = ye := by
        field_simp
        ring
      show (((xe ^ 2 - ye ^ 2) * xe + 2 * xe * ye * ye) / (xe ^ 2 + ye ^ 2),
        (2 * xe * ye * xe - (xe ^ 2 - ye ^ 2) * ye) / (xe ^ 2 + ye ^ 2)) = (xe, ye)
      rw [h1, h2]
    have hzsne : (x.zip y).map (reflect_point xe ye) ≠ [] := by
      intro hcon
      exact hzipne (List.map_eq_nil.1 hcon)
    have hxslast : (((x.zip y).map (reflect_point xe ye)).map Prod.fst).getLastD 0 = xe := by
      rw [getLastD_map Prod.fst hzsne ((0:ℝ), (0:ℝ)) 0,
        getLastD_map (reflect_point xe ye) hzipne ((0:ℝ), (0:ℝ)) ((0:ℝ), (0:ℝ)),
        hlastzip, hreflast]
    have hyslast : (((x.zip y).map (reflect_point xe ye)).map Prod.snd).getLastD 0 = ye := by
      rw [getLastD_map Prod.snd hzsne ((0:ℝ), (0:ℝ)) 0,
        getLastD_map (reflect_point xe ye) hzipne ((0:ℝ), (0:ℝ)) ((0:ℝ), (0:ℝ)),
        hlastzip, hreflast]
    have hcrossrefl : ∀ p : ℝ × ℝ,
        (reflect_point xe ye p).1 * ye - (reflect_point xe ye p).2 * xe
          = -(p.1 * ye - p.2 * xe) := by
      intro p
      show (((xe ^ 2 - ye ^ 2) * p.1 + 2 * xe * ye * p.2) / (xe ^ 2 + ye ^ 2)) * ye
          - ((2 * xe * ye * p.1 - (xe ^ 2 - ye ^ 2) * p.2) / (xe ^ 2 + ye ^ 2)) * xe
          = -(p.1 * ye - p.2 * xe)
      field_simp
      ring
    have hmirror_rx : rxList (((x.zip y).map (reflect_point xe ye)).map Prod.fst)
        (((x.zip y).map (reflect_point xe ye)).map Prod.snd)
        = ((x.zip y).map (fun p => K * (p.1 * ye - p.2 * xe))).map Neg.neg := by
      rw [rxList, zip_map_fst_snd, hxslast, hyslast, List.map_map, List.map_map]
      apply List.map_congr_left
      intro p hp
      show (rotate (reflect_point xe ye p).1 (reflect_point xe ye p).2
          (Real.arctan (xe / ye))).1 = -(K * (p.1 * ye - p.2 * xe))
      rw [hrot (reflect_point xe ye p), hcrossrefl p]
      ring
    constructor
    · rw [max_deviation, max_deviation, hmirror_rx, hrxeq]
      exact (mdCore_mirror _ h0mem hsgn' hstrict').1
    · rw [max_deviation, hrxeq]
      exact (mdCore_mirror _ h0mem hsgn' hstrict').2

theorem max_deviation_sign_convention_witness :
    max_deviation
        ((([(0:ℝ), 1, 1].zip [(0:ℝ), 0, 1]).map
          (reflect_point (([(0:ℝ), 1, 1]).getLastD 0)
            (([(0:ℝ), 0, 1]).getLastD 0))).map Prod.fst)
        ((([(0:ℝ), 1, 1].zip [(0:ℝ), 0, 1]).map
          (reflect_point (([(0:ℝ), 1, 1]).getLastD 0)
            (([(0:ℝ), 0, 1]).getLastD 0))).map Prod.snd)
      = - max_deviation [(0:ℝ), 1, 1] [(0:ℝ), 0, 1] ∧
    max_deviation [(0:ℝ), 1, 1] [(0:ℝ), 0, 1] ≠ 0 := by
  have hy : ([(0:ℝ), 0, 1]).getLastD 0 ≠ 0 := by
    rw [show ([(0:ℝ), 0, 1]).getLastD 0 = 1 from rfl]
    norm_num
  have hzip : ([(0:ℝ), 1, 1].zip [(0:ℝ), 0, 1])
      = [((0:ℝ), (0:ℝ)), (1, 0), (1, 1)] := rfl
  refine (max_deviation_sign_convention [0, 1, 1] [0, 0, 1] (by simp) rfl hy).2 ?_ ?_
  · left
    intro p hp
    rw [hzip] at hp
    rw [show ([(0:ℝ), 0, 1]).getLastD 0 = 1 from rfl,
      show ([(0:ℝ), 1, 1]).getLastD 0 = 1 from rfl]
    rcases List.mem_cons.1 hp with rfl | hp'
    · norm_num
    rcases List.mem_cons.1 hp' with rfl | hp''
    · norm_num
    rcases List.mem_cons.1 hp'' with rfl | hp3
    · norm_num
    · simp at hp3
  · refine ⟨((1:ℝ), (0:ℝ)), ?_, ?_⟩
    · rw [hzip]
      exact List.mem_cons_of_mem _ (List.mem_cons_self _ _)
    · rw [show ([(0:ℝ), 0, 1]).getLastD 0 = 1 from rfl,
        show ([(0:ℝ), 1, 1]).getLastD 0 = 1 from rfl]
      norm_num

end Squeak
